import Mathlib

/- Verification of the cleans artifact-cleanup tool: a shallow embedding of
   src/main.rs (parallel tree walk, size accumulation, classification store). -/

/-- 2^64, the modulus of Rust u64 arithmetic (release-profile wrapping). -/
def M64 : Nat := 2 ^ 64

/-- One discovered artifact root (struct PathInfo, src/main.rs lines 161-166).
`last_modified` is a timestamp in whole seconds since an epoch; `size` is the
recursive byte total computed by iter_file_size. -/
structure PathInfo where
  path : String
  last_modified : Nat
  size : Nat
  deriving DecidableEq, Repr

/-- The classification store's state (struct PathInfoStore, lines 192-198):
`projects` is the selected-for-cleanup list, `ignores` the kept list. -/
structure PathInfoStore where
  keep_days : Nat
  keep_size : Nat
  projects : List PathInfo
  ignores : List PathInfo
  deriving DecidableEq, Repr

/-- PathInfoStore::new (lines 200-207): converts keep_size from MB to bytes by
multiplying by 1024 * 1024 in u64 arithmetic, which wraps modulo 2^64. -/
def PathInfoStore.new (keep_days keep_size : Nat) : PathInfoStore :=
  { keep_size := keep_size * 1024 * 1024 % M64,
    keep_days := keep_days,
    projects := [],
    ignores := [] }

/-- SystemTime::elapsed measured at instant `now`: returns the elapsed whole
seconds, or fails (Err) exactly when `lm` lies in the future of `now`. -/
def elapsedSecs (now lm : Nat) : Option Nat :=
  if lm ≤ now then some (now - lm) else none

/-- The age computation in PathInfoStore::push (lines 210-213):
elapsed().map_or(0, closure dividing seconds by 60*60*24 and casting to u32);
the u32 cast truncates modulo 2^32. -/
def days_elapsed (now : Nat) (info : PathInfo) : Nat :=
  match elapsedSecs now info.last_modified with
  | none => 0
  | some x => x / (60 * 60 * 24) % 2 ^ 32

/-- PathInfoStore::push (lines 209-219): append the record to `ignores` when
size <= keep_size or days_elapsed < keep_days, otherwise to `projects`. -/
def PathInfoStore.push (s : PathInfoStore) (now : Nat) (info : PathInfo) : PathInfoStore :=
  if info.size ≤ s.keep_size ∨ days_elapsed now info < s.keep_days then
    { s with ignores := s.ignores ++ [info] }
  else
    { s with projects := s.projects ++ [info] }

/-- A serialized arrival order of add_path_info calls: the aqueue Actor wrapper
(lines 260-268) executes the queued push calls one at a time, so any concurrent
execution is some arrival list; each element carries the wall-clock instant
`now` at which its push runs, with the record pushed. -/
def PathInfoStore.addAll (s : PathInfoStore) : List (Nat × PathInfo) → PathInfoStore
  | [] => s
  | (now, info) :: rest => (s.push now info).addAll rest

/-- One line of PathInfoStore::display output (lines 221-241), abstracting the
textual rendering: the two section headers, one line per record, and the final
totals line (count selected, count total, freeable byte total). -/
inductive DisplayLine where
  | ignoreHeader
  | selectHeader
  | record (info : PathInfo)
  | totals (selCount : Nat) (totalCount : Nat) (freeable : Nat)
  deriving DecidableEq, Repr

/-- PathInfoStore::display (lines 221-241): the ignored section (header plus
one line per record, only when nonempty), then the selected section likewise,
then the totals line; the freeable total is the u64 sum of selected sizes. -/
def PathInfoStore.display (s : PathInfoStore) : List DisplayLine :=
  (if s.ignores.isEmpty then [] else DisplayLine.ignoreHeader :: s.ignores.map DisplayLine.record)
    ++ (if s.projects.isEmpty then [] else
          DisplayLine.selectHeader :: s.projects.map DisplayLine.record)
    ++ [DisplayLine.totals s.projects.length (s.projects.length + s.ignores.length)
          ((s.projects.map PathInfo.size).sum % M64)]

/-- The display operation as routed through the actor (lines 269-275): it reads
the state with get() (no get_mut), so it returns the state unchanged next to
the produced transcript. -/
def displayOp (s : PathInfoStore) : PathInfoStore × List DisplayLine :=
  (s, s.display)

/-- The records rendered in a display transcript, in transcript order. -/
def recordsOf (l : List DisplayLine) : List PathInfo :=
  l.filterMap fun x =>
    match x with
    | DisplayLine.record i => some i
    | _ => none

/-- remove_dir_all over a record list in order (the loop of lines 244-246),
against an outcome oracle `del` (true = deletion of that path succeeds). The
`?` operator stops at the first failure; the io error value is abstracted as
the failing path. Returns the list of paths on which deletion was attempted
together with the overall result. -/
def cleanList (del : String → Bool) : List PathInfo → List String × Except String Unit
  | [] => ([], Except.ok ())
  | p :: rest =>
      if del p.path then
        (p.path :: (cleanList del rest).1, (cleanList del rest).2)
      else
        ([p.path], Except.error p.path)

/-- PathInfoStore::clean (lines 243-248): remove_dir_all over `projects` only,
in sequence order, stopping at the first failure. -/
def PathInfoStore.clean (del : String → Bool) (s : PathInfoStore) :
    List String × Except String Unit :=
  cleanList del s.projects

/-- A snapshot of the scanned filesystem subtree. A file node carries the
byte length its metadata would report and `metaOk`, whether the metadata read
succeeds (Rust Path::is_file itself calls metadata, so it reports false when
metaOk is false). A dir node carries its own modification time `mtime`,
whether reading that metadata succeeds (`mtimeOk`), whether read_dir succeeds
(`readable`), and its immediate entries. -/
inductive FSTree where
  | file (fname : String) (len : Nat) (metaOk : Bool)
  | dir (dname : String) (mtime : Nat) (mtimeOk : Bool) (readable : Bool)
      (entries : List FSTree)

/-- Path::file_name of the node (every modelled node has a base name). -/
def FSTree.name : FSTree → String
  | .file n _ _ => n
  | .dir n _ _ _ _ => n

/-- DirEntry::file_type().is_dir() for the node. -/
def FSTree.isDir : FSTree → Bool
  | .file _ _ _ => false
  | .dir _ _ _ _ _ => true

/-- Path metadata modified-time read: for a file it succeeds iff the metadata
read does; the modelled modified time of a file is irrelevant (files are never
emitted) and taken as 0. -/
def FSTree.mtimeOk : FSTree → Bool
  | .file _ _ mOk => mOk
  | .dir _ _ ok _ _ => ok

/-- The node's own modified time as read by metadata()?.modified()?. -/
def FSTree.mtime : FSTree → Nat
  | .file _ _ _ => 0
  | .dir _ m _ _ _ => m

mutual

/-- iter_file_size (lines 137-158). The source matches on the pair
(path.is_file(), path.metadata()): the first arm (true, Ok(md)) returns
md.len(); every other shape falls to the default arm, which calls read_dir —
returning Ok(0) when the listing fails (which it does for any non-directory,
hence also for a file whose metadata read failed) — and otherwise sums the
entries' recursive sizes with u64 `+=` (wrapping modulo 2^64). The four match
arms below enumerate exactly that case analysis on the snapshot. -/
def iter_file_size : FSTree → Except String Nat
  | .file _ len true => Except.ok len
  | .file _ _ false => Except.ok 0
  | .dir _ _ _ false _ => Except.ok 0
  | .dir _ _ _ true es => iterSizeList es

/-- The accumulation loop of iter_file_size (lines 146-154): await each
spawned child in order, propagating any child error with ?? and accumulating
with u64 addition. -/
def iterSizeList : List FSTree → Except String Nat
  | [] => Except.ok 0
  | e :: rest => do
      let s ← iter_file_size e
      let r ← iterSizeList rest
      pure ((s + r) % M64)

end

mutual

/-- The value iter_file_size computes: metadata-readable files report their
length, metadata-failed files and unlistable directories contribute 0, and a
readable directory wraps its entries' sum into u64 range. -/
def sizeW : FSTree → Nat
  | .file _ len true => len
  | .file _ _ false => 0
  | .dir _ _ _ false _ => 0
  | .dir _ _ _ true es => sizeWList es % M64

/-- Unwrapped sum of sizeW over a list of entries. -/
def sizeWList : List FSTree → Nat
  | [] => 0
  | e :: rest => sizeW e + sizeWList rest

end

mutual

/-- Specification-level size: the exact sum of the byte lengths of all regular
files transitively reachable through listable directories. -/
def totalFileBytes : FSTree → Nat
  | .file _ len _ => len
  | .dir _ _ _ false _ => 0
  | .dir _ _ _ true es => totalListBytes es

/-- Specification-level size of a list of entries. -/
def totalListBytes : List FSTree → Nat
  | [] => 0
  | e :: rest => totalFileBytes e + totalListBytes rest

end

mutual

/-- Every regular file in the snapshot (inside listable directories) has a
successful metadata read. -/
def allMetaOk : FSTree → Bool
  | .file _ _ mOk => mOk
  | .dir _ _ _ false _ => true
  | .dir _ _ _ true es => allMetaOkList es

/-- allMetaOk over a list of entries. -/
def allMetaOkList : List FSTree → Bool
  | [] => true
  | e :: rest => allMetaOk e && allMetaOkList rest

end

/-- The path of a directory entry: parent path, separator, base name. -/
def childPath (p n : String) : String := p ++ "/" ++ n

/-- Path::exists for parent/Cargo.toml (line 103): some entry of the parent
directory is named Cargo.toml (a file or a directory both count). -/
def hasCargoToml (es : List FSTree) : Bool :=
  es.any fun e => e.name = "Cargo.toml"

/-- The observable outcome of one iter_path call (and, recursively, of all the
tasks it spawns): the PathInfo records emitted to the store, the paths on
which iter_path was invoked, and the first error in await order (none = Ok).
Because children are spawned before any of them is awaited, every spawned
child runs to completion and its emissions reach the global store even when an
earlier sibling already failed, so `emitted` collects from all children while
`err` keeps only the first failure. -/
structure WalkOut where
  emitted : List PathInfo
  visited : List String
  err : Option String
  deriving DecidableEq, Repr

/-- The first error in await order. -/
def firstSome : Option String → Option String → Option String
  | some e, _ => some e
  | none, o => o

/-- The early-return section of iter_path (lines 89-119): .git is skipped
outright; a directory named target whose parent contains Cargo.toml is a
genuine artifact root — its own modified time is read (the ? on line 104
turning a metadata failure into an error, modelled with the path standing in
for the io error value), its recursive size computed, and one record emitted —
while target without the manifest, and every other name, falls through (none)
to the directory listing. `phc` is whether the parent directory contains
Cargo.toml; none models a path with no parent (line 99). -/
def earlyReturn (p : String) (phc : Option Bool) (t : FSTree) : Option WalkOut :=
  if t.name = ".git" then some ⟨[], [p], none⟩
  else if t.name = "target" then
    match phc with
    | none => some ⟨[], [p], none⟩
    | some true =>
        if t.mtimeOk then
          match iter_file_size t with
          | Except.ok sz => some ⟨[⟨p, t.mtime, sz⟩], [p], none⟩
          | Except.error e => some ⟨[], [p], some e⟩
        else some ⟨[], [p], some p⟩
    | some false => none
  else none

mutual

/-- iter_path (lines 87-134): the early-return section, then the fall-through
listing — an unlistable path (any file, or an unreadable directory, line 122)
yields Ok with nothing emitted, and a readable directory spawns one task per
subdirectory entry and awaits them all. -/
def iter_path (p : String) (phc : Option Bool) (t : FSTree) : WalkOut :=
  match earlyReturn p phc t with
  | some w => w
  | none =>
    match t with
    | .file _ _ _ => ⟨[], [p], none⟩
    | .dir _ _ _ false _ => ⟨[], [p], none⟩
    | .dir _ _ _ true es =>
        let w := walkList p (hasCargoToml es) es
        ⟨w.emitted, p :: w.visited, w.err⟩

/-- The fan-out loop of iter_path (lines 124-132): non-directory entries are
filtered out (line 127), each subdirectory is walked with the listing of the
current directory deciding its parent-has-Cargo.toml flag, and the awaits
keep the first error while all emissions reach the store. -/
def walkList (p : String) (hc : Bool) : List FSTree → WalkOut
  | [] => ⟨[], [], none⟩
  | c :: rest =>
      let w := if c.isDir then iter_path (childPath p c.name) (some hc) c
               else ⟨[], [], none⟩
      let ws := walkList p hc rest
      ⟨w.emitted ++ ws.emitted, w.visited ++ ws.visited, firstSome w.err ws.err⟩

end

mutual

/-- iter_file_size never returns an error: it computes exactly sizeW. -/
theorem iter_file_size_eq : ∀ t : FSTree, iter_file_size t = Except.ok (sizeW t)
  | .file _ _ true => rfl
  | .file _ _ false => rfl
  | .dir _ _ _ false _ => rfl
  | .dir _ _ _ true es => iterSizeList_eq es

/-- The accumulation loop computes the wrapped sum of the entries. -/
theorem iterSizeList_eq : ∀ l : List FSTree, iterSizeList l = Except.ok (sizeWList l % M64)
  | [] => by simp [iterSizeList, sizeWList]
  | e :: rest => by
      simp only [iterSizeList, iter_file_size_eq e, iterSizeList_eq rest, sizeWList,
        Except.bind, bind, pure, Except.pure]
      rw [Nat.add_mod_mod]

end

/-- sizeWList is the plain sum of sizeW over the entries. -/
theorem sizeWList_eq_sum (l : List FSTree) : sizeWList l = (l.map sizeW).sum := by
  induction l with
  | nil => rfl
  | cons e rest ih => simp [sizeWList, ih]

mutual

/-- When every reachable file's metadata is readable and the true total fits
in u64, the computed size is the exact total. -/
theorem sizeW_eq_total : ∀ t : FSTree, allMetaOk t = true → totalFileBytes t < M64 →
    sizeW t = totalFileBytes t
  | .file _ _ true, _, _ => rfl
  | .file _ _ false, h, _ => by simp [allMetaOk] at h
  | .dir _ _ _ false _, _, _ => rfl
  | .dir _ _ _ true es, h, hb => by
      have hs := sizeWList_eq_total es (by simpa [allMetaOk] using h)
        (by simpa [totalFileBytes] using hb)
      simp only [sizeW, totalFileBytes, hs]
      exact Nat.mod_eq_of_lt (by simpa [totalFileBytes] using hb)

/-- List version of sizeW_eq_total. -/
theorem sizeWList_eq_total : ∀ l : List FSTree, allMetaOkList l = true →
    totalListBytes l < M64 → sizeWList l = totalListBytes l
  | [], _, _ => rfl
  | e :: rest, h, hb => by
      simp only [allMetaOkList, Bool.and_eq_true] at h
      simp only [totalListBytes] at hb
      have h1 := sizeW_eq_total e h.1 (Nat.lt_of_le_of_lt (Nat.le_add_right _ _) hb)
      have h2 := sizeWList_eq_total rest h.2 (Nat.lt_of_le_of_lt (Nat.le_add_left _ _) hb)
      simp [sizeWList, totalListBytes, h1, h2]

end

/-- Unfolding lemma for iter_path (its defining case split, stated manually
because the recursion goes through the earlyReturn scrutinee). -/
theorem iter_path_eq (p : String) (phc : Option Bool) (t : FSTree) :
    iter_path p phc t =
      match earlyReturn p phc t with
      | some w => w
      | none =>
        match t with
        | .file _ _ _ => ⟨[], [p], none⟩
        | .dir _ _ _ false _ => ⟨[], [p], none⟩
        | .dir _ _ _ true es =>
            ⟨(walkList p (hasCargoToml es) es).emitted,
              p :: (walkList p (hasCargoToml es) es).visited,
              (walkList p (hasCargoToml es) es).err⟩ := by
  cases t with
  | file fn len mOk => rfl
  | dir dn m mo r es => cases r <;> rfl

/-- When the early-return section fires, its outcome is the call's outcome. -/
theorem iter_path_early (p : String) (phc : Option Bool) (t : FSTree) (w : WalkOut)
    (h : earlyReturn p phc t = some w) : iter_path p phc t = w := by
  rw [iter_path_eq, h]

/-- Fall-through on a readable directory: list it and fan out. -/
theorem iter_path_fallthrough (p : String) (phc : Option Bool) (dn : String) (m : Nat)
    (mo : Bool) (es : List FSTree)
    (h : earlyReturn p phc (FSTree.dir dn m mo true es) = none) :
    iter_path p phc (FSTree.dir dn m mo true es) =
      ⟨(walkList p (hasCargoToml es) es).emitted,
        p :: (walkList p (hasCargoToml es) es).visited,
        (walkList p (hasCargoToml es) es).err⟩ := by
  rw [iter_path_eq, h]

/-- Fall-through on a node whose listing fails (a file or an unreadable
directory): nothing is emitted and nothing recursed. -/
theorem iter_path_unlistable (p : String) (phc : Option Bool) (t : FSTree)
    (h : earlyReturn p phc t = none)
    (hl : (∃ fn len mOk, t = FSTree.file fn len mOk)
        ∨ ∃ dn m mo es, t = FSTree.dir dn m mo false es) :
    iter_path p phc t = ⟨[], [p], none⟩ := by
  rcases hl with ⟨fn, len, mOk, rfl⟩ | ⟨dn, m, mo, es, rfl⟩ <;> rw [iter_path_eq, h]

/-- Every record an early return emits carries the call's own path. -/
theorem earlyReturn_emitted (p : String) (phc : Option Bool) (t : FSTree) (w : WalkOut)
    (h : earlyReturn p phc t = some w) : ∀ r ∈ w.emitted, r.path = p := by
  unfold earlyReturn at h
  split at h
  · cases h; simp
  · split at h
    · split at h
      · cases h; simp
      · split at h
        · split at h
          · cases h; simp_all
          · cases h; simp
        · cases h; simp
      · exact absurd h (by simp)
    · exact absurd h (by simp)

mutual

/-- Every record emitted anywhere below an iter_path call has a path at least
as long as the call's path. -/
theorem iter_path_emitted_le : ∀ (p : String) (phc : Option Bool) (t : FSTree)
    (r : PathInfo), r ∈ (iter_path p phc t).emitted → p.length ≤ r.path.length
  | p, phc, t, r => by
      intro hr
      cases he : earlyReturn p phc t with
      | some w =>
          rw [iter_path_early p phc t w he] at hr
          rw [earlyReturn_emitted p phc t w he r hr]
      | none =>
          match t, he with
          | .file fn len mOk, he =>
              rw [iter_path_unlistable p phc _ he (Or.inl ⟨fn, len, mOk, rfl⟩)] at hr
              simp at hr
          | .dir dn m mo false es, he =>
              rw [iter_path_unlistable p phc _ he (Or.inr ⟨dn, m, mo, es, rfl⟩)] at hr
              simp at hr
          | .dir dn m mo true es, he =>
              rw [iter_path_fallthrough p phc dn m mo es he] at hr
              exact Nat.le_of_lt (walkList_emitted_lt p (hasCargoToml es) es r hr)

/-- Every record emitted from the fan-out loop has a path strictly longer than
the parent directory's path. -/
theorem walkList_emitted_lt : ∀ (p : String) (hc : Bool) (l : List FSTree)
    (r : PathInfo), r ∈ (walkList p hc l).emitted → p.length < r.path.length
  | p, hc, [], r => by simp [walkList]
  | p, hc, c :: rest, r => by
      intro hr
      simp only [walkList, List.mem_append] at hr
      rcases hr with hr | hr
      · by_cases hd : c.isDir
        · rw [if_pos hd] at hr
          have hle := iter_path_emitted_le (childPath p c.name) (some hc) c r hr
          have hsl : ("/" : String).length = 1 := rfl
          have hlen : (childPath p c.name).length = p.length + 1 + c.name.length := by
            simp only [childPath, String.length_append, hsl]
          omega
        · rw [if_neg hd] at hr
          simp at hr
      · exact walkList_emitted_lt p hc rest r hr

end

/-- C1: a record passed to add lands in the ignored sequence iff its sizeBytes
is at most keepSizeBytes or its age in whole 24-hour days since lastModified
(as computed by the source, defaulting to 0 when the elapsed-time computation
fails) is strictly below keepDays; otherwise it lands in the selected
sequence. In particular size exactly equal to keepSizeBytes is ignored, age
exactly equal to keepDays does not pass the age test, and a lastModified in
the future yields age 0. -/
theorem push_classifies (s : PathInfoStore) (now : Nat) (info : PathInfo) :
    (((s.push now info).ignores = s.ignores ++ [info]
        ∧ (s.push now info).projects = s.projects)
      ↔ (info.size ≤ s.keep_size ∨ days_elapsed now info < s.keep_days))
  ∧ (((s.push now info).projects = s.projects ++ [info]
        ∧ (s.push now info).ignores = s.ignores)
      ↔ ¬(info.size ≤ s.keep_size ∨ days_elapsed now info < s.keep_days))
  ∧ (info.size = s.keep_size → (s.push now info).ignores = s.ignores ++ [info])
  ∧ (days_elapsed now info = s.keep_days ∧ s.keep_size < info.size →
      (s.push now info).projects = s.projects ++ [info])
  ∧ (now < info.last_modified → days_elapsed now info = 0) := by
  by_cases h : info.size ≤ s.keep_size ∨ days_elapsed now info < s.keep_days
  · refine ⟨by simp [PathInfoStore.push, h], by simp [PathInfoStore.push, h], ?_, ?_, ?_⟩
    · intro _; simp [PathInfoStore.push, h]
    · intro ⟨hd, hs⟩
      exfalso
      rcases h with h | h
      · omega
      · omega
    · intro hf
      simp [days_elapsed, elapsedSecs, Nat.not_le.mpr hf]
  · refine ⟨by simp [PathInfoStore.push, h], by simp [PathInfoStore.push, h], ?_, ?_, ?_⟩
    · intro hs
      exfalso
      exact h (Or.inl (Nat.le_of_eq hs))
    · intro _; simp [PathInfoStore.push, h]
    · intro hf
      simp [days_elapsed, elapsedSecs, Nat.not_le.mpr hf]

/-- C1 witness: with keepSizeBytes 100 and keepDays 5, a record of size
exactly 100 is appended to the ignored sequence. -/
theorem push_classifies_witness :
    (PathInfoStore.push ⟨5, 100, [], []⟩ 1000000 ⟨"p", 0, 100⟩).ignores
        = [(⟨"p", 0, 100⟩ : PathInfo)]
      ∧ (PathInfoStore.push ⟨5, 100, [], []⟩ 1000000 ⟨"p", 0, 100⟩).projects = [] :=
  (push_classifies ⟨5, 100, [], []⟩ 1000000 ⟨"p", 0, 100⟩).1.mpr (Or.inl (by decide))

/-- C9 counterexample: the configured keep-size 2^44 MB overflows the u64
multiplication by 1,048,576, so the stored keepSizeBytes is 0 and not the
claimed product. -/
theorem new_keep_size_overflow :
    (PathInfoStore.new 0 (2 ^ 44)).keep_size = 0
      ∧ (PathInfoStore.new 0 (2 ^ 44)).keep_size ≠ 2 ^ 44 * 1048576 := by
  constructor
  · norm_num [PathInfoStore.new, M64]
  · norm_num [PathInfoStore.new, M64]

/-- C9 amended: the keep-size threshold in megabytes is converted to bytes by
multiplying by 1,048,576 in u64 arithmetic before the policy is stored, so the
stored keepSizeBytes equals s * 1,048,576 for every configured s below 2^44;
beyond that the u64 product wraps modulo 2^64. -/
theorem new_keep_size (kd s : Nat) (h : s < 2 ^ 44) :
    (PathInfoStore.new kd s).keep_size = s * 1048576 := by
  have hb : s * 1024 * 1024 < 2 ^ 64 := by
    have h1 : s * 1024 * 1024 = s * 1048576 := by ring
    have h2 : s * 1048576 < 2 ^ 44 * 1048576 := by
      have : (0 : Nat) < 1048576 := by norm_num
      exact Nat.mul_lt_mul_of_lt_of_le h (Nat.le_refl _) this
    omega
  have hm : s * 1024 * 1024 = s * 1048576 := by ring
  simp only [PathInfoStore.new, M64]
  rw [Nat.mod_eq_of_lt hb, hm]

/-- C9 witness: 3 MB is stored as 3,145,728 bytes. -/
theorem new_keep_size_witness : (PathInfoStore.new 7 3).keep_size = 3145728 :=
  new_keep_size 7 3 (by norm_num)

/-- C3: on a snapshot where every reachable file's metadata is readable and
the true byte total fits in u64, iter_file_size returns exactly the sum of the
byte lengths of all regular files transitively reachable through listable
directories; a regular file contributes its own length, an unlistable
directory contributes 0 instead of failing, and the result is invariant under
any permutation of a directory's entries (hence independent of the parallel
fan-out structure). -/
theorem iter_file_size_spec (t : FSTree)
    (hm : allMetaOk t = true) (hb : totalFileBytes t < M64) :
    iter_file_size t = Except.ok (totalFileBytes t)
  ∧ (∀ n len, iter_file_size (FSTree.file n len true) = Except.ok len)
  ∧ (∀ n m mo es, iter_file_size (FSTree.dir n m mo false es) = Except.ok 0)
  ∧ (∀ n m mo es es', es.Perm es' →
      iter_file_size (FSTree.dir n m mo true es)
        = iter_file_size (FSTree.dir n m mo true es')) := by
  refine ⟨?_, fun n len => rfl, fun n m mo es => rfl, ?_⟩
  · rw [iter_file_size_eq t, sizeW_eq_total t hm hb]
  · intro n m mo es es' hperm
    rw [iter_file_size_eq, iter_file_size_eq]
    have : sizeW (FSTree.dir n m mo true es) = sizeW (FSTree.dir n m mo true es') := by
      simp only [sizeW, sizeWList_eq_sum]
      rw [(hperm.map sizeW).sum_eq]
    rw [this]

/-- C3 witness: a target directory holding a 3-byte file and a subdirectory
with a 4-byte file measures 7 bytes. -/
theorem iter_file_size_spec_witness :
    iter_file_size (FSTree.dir "target" 0 true true
        [FSTree.file "a" 3 true, FSTree.dir "sub" 1 true true [FSTree.file "b" 4 true]])
      = Except.ok 7 :=
  (iter_file_size_spec (FSTree.dir "target" 0 true true
      [FSTree.file "a" 3 true, FSTree.dir "sub" 1 true true [FSTree.file "b" 4 true]])
    (by decide) (by decide)).1

/-- C4 counterexample: for the regular file f.bin whose metadata read fails,
the claim says the size computation propagates an error, but iter_file_size
returns Ok 0 — Path::is_file reports false when the metadata read fails, the
match falls to the directory arm, and read_dir's failure on a file is the
tolerated Ok(0) case. -/
theorem iter_file_size_metadata_swallowed :
    iter_file_size (FSTree.file "f.bin" 5 false) = Except.ok 0 := rfl

/-- C4 amended: an error reading a regular file's metadata is swallowed, not
propagated: the file contributes 0 to the total, and iter_file_size never
surfaces an error on any snapshot (it always returns Ok of the computed
size). -/
theorem iter_file_size_no_error :
    (∀ n len, iter_file_size (FSTree.file n len false) = Except.ok 0)
  ∧ (∀ t : FSTree, iter_file_size t = Except.ok (sizeW t)) :=
  ⟨fun _ _ => rfl, iter_file_size_eq⟩

/-- C2: for a directory named target (with readable metadata), when Cargo.toml
exists in the parent directory the walk emits exactly one record — carrying
the directory's path, its own modified time, and its recursive size — visits
nothing below it (pruning), and returns Ok; when Cargo.toml is absent from
the parent, the directory is handled exactly like an ordinary directory
(listed, with one task fanned out per subdirectory entry) and no record is
emitted for the directory itself (every emitted record's path is strictly
longer). -/
theorem iter_path_target_spec (p : String) (m : Nat) (r : Bool) (es : List FSTree) :
    iter_path p (some true) (FSTree.dir "target" m true r es)
      = ⟨[⟨p, m, sizeW (FSTree.dir "target" m true r es)⟩], [p], none⟩
  ∧ iter_path p (some false) (FSTree.dir "target" m true true es)
      = ⟨(walkList p (hasCargoToml es) es).emitted,
          p :: (walkList p (hasCargoToml es) es).visited,
          (walkList p (hasCargoToml es) es).err⟩
  ∧ (∀ q ∈ (iter_path p (some false) (FSTree.dir "target" m true true es)).emitted,
        p.length < q.path.length) := by
  have h1 : earlyReturn p (some true) (FSTree.dir "target" m true r es)
      = some ⟨[⟨p, m, sizeW (FSTree.dir "target" m true r es)⟩], [p], none⟩ := by
    simp [earlyReturn, FSTree.name, FSTree.mtimeOk, FSTree.mtime,
      iter_file_size_eq (FSTree.dir "target" m true r es)]
  have h2 : earlyReturn p (some false) (FSTree.dir "target" m true true es) = none := by
    simp [earlyReturn, FSTree.name]
  have hfall := iter_path_fallthrough p (some false) "target" m true es h2
  refine ⟨iter_path_early _ _ _ _ h1, hfall, ?_⟩
  intro q hq
  rw [hfall] at hq
  exact walkList_emitted_lt p (hasCargoToml es) es q hq

/-- C2 witness: a target directory holding one 3-byte file, with the manifest
present in the parent, produces exactly the one expected record and is not
recursed into. -/
theorem iter_path_target_spec_witness :
    iter_path "proj/target" (some true)
        (FSTree.dir "target" 7 true true [FSTree.file "a" 3 true])
      = ⟨[⟨"proj/target", 7, 3⟩], ["proj/target"], none⟩ :=
  (iter_path_target_spec "proj/target" 7 true [FSTree.file "a" 3 true]).1

/-- C6: a directory (or any node) whose base name is .git makes iter_path
return Ok immediately: no record is emitted, nothing below it is visited (the
visited trace is just the .git path itself), so no record can ever be emitted
from anywhere inside a .git subtree encountered during the walk. -/
theorem iter_path_git_prunes (p : String) (phc : Option Bool) (t : FSTree)
    (h : t.name = ".git") : iter_path p phc t = ⟨[], [p], none⟩ := by
  apply iter_path_early
  unfold earlyReturn
  rw [h]
  simp

/-- C6 witness: a .git directory containing a would-be artifact root is pruned
whole — zero records, no visit below the .git boundary. -/
theorem iter_path_git_prunes_witness :
    iter_path "r/x/.git" (some false)
        (FSTree.dir ".git" 3 true true
          [FSTree.dir "proj" 1 true true
            [FSTree.file "Cargo.toml" 9 true, FSTree.dir "target" 2 true true []]])
      = ⟨[], ["r/x/.git"], none⟩ :=
  iter_path_git_prunes "r/x/.git" (some false)
    (FSTree.dir ".git" 3 true true
      [FSTree.dir "proj" 1 true true
        [FSTree.file "Cargo.toml" 9 true, FSTree.dir "target" 2 true true []]]) rfl

/-- When every deletion succeeds, clean attempts every selected path in order
and returns Ok. -/
theorem cleanList_ok (del : String → Bool) :
    ∀ l : List PathInfo, (∀ p ∈ l, del p.path = true) →
      cleanList del l = (l.map PathInfo.path, Except.ok ()) := by
  intro l
  induction l with
  | nil => intro _; rfl
  | cons p rest ih =>
      intro h
      have hp : del p.path = true := h p (List.mem_cons_self p rest)
      have hr := ih fun q hq => h q (List.mem_cons_of_mem p hq)
      simp [cleanList, hp, hr]

/-- The first failing record stops clean: everything before it was attempted
and succeeded, it was attempted and failed, nothing after it was attempted. -/
theorem cleanList_err (del : String → Bool) :
    ∀ (good : List PathInfo) (p : PathInfo) (bad : List PathInfo),
      (∀ q ∈ good, del q.path = true) → del p.path = false →
      cleanList del (good ++ p :: bad)
        = (good.map PathInfo.path ++ [p.path], Except.error p.path) := by
  intro good
  induction good with
  | nil =>
      intro p bad _ hp
      simp [cleanList, hp]
  | cons q rest ih =>
      intro p bad h hp
      have hq : del q.path = true := h q (List.mem_cons_self q rest)
      have hr := ih p bad (fun x hx => h x (List.mem_cons_of_mem q hx)) hp
      simp [cleanList, hq, hr]

/-- Every attempted path belongs to the input record list. -/
theorem cleanList_attempted (del : String → Bool) :
    ∀ l : List PathInfo, ∀ x ∈ (cleanList del l).1, x ∈ l.map PathInfo.path := by
  intro l
  induction l with
  | nil => simp [cleanList]
  | cons p rest ih =>
      intro x hx
      by_cases hp : del p.path
      · simp only [cleanList, if_pos hp, List.mem_cons] at hx
        rcases hx with hx | hx
        · simp [hx]
        · simp [ih x hx]
      · simp only [cleanList, if_neg hp, List.mem_singleton] at hx
        simp [hx]

/-- C5: clean attempts to delete the directory of every selected record in
sequence order; if every deletion succeeds it attempts them all and returns
Ok, at the first failing record it stops — the attempted list is exactly the
successful prefix plus the failing path, the returned error names that path,
and no later record is attempted — every attempted path comes from the
selected sequence, and the ignored sequence never influences what is
deleted. -/
theorem clean_spec (del : String → Bool) (s : PathInfoStore) :
    ((∀ p ∈ s.projects, del p.path = true) →
        s.clean del = (s.projects.map PathInfo.path, Except.ok ()))
  ∧ (∀ good p bad, s.projects = good ++ p :: bad →
        (∀ q ∈ good, del q.path = true) → del p.path = false →
        s.clean del = (good.map PathInfo.path ++ [p.path], Except.error p.path))
  ∧ (∀ x ∈ (s.clean del).1, x ∈ s.projects.map PathInfo.path)
  ∧ (∀ ign, PathInfoStore.clean del { s with ignores := ign } = s.clean del) := by
  refine ⟨fun h => cleanList_ok del s.projects h, ?_, cleanList_attempted del s.projects,
    fun ign => rfl⟩
  intro good p bad hsplit hgood hp
  show cleanList del s.projects = _
  rw [hsplit]
  exact cleanList_err del good p bad hgood hp

/-- C5 witness: with selected records a, b, c where deleting b fails, clean
attempts a then b, stops with the error naming b, and never touches c (nor
the ignored record z). -/
theorem clean_spec_witness :
    PathInfoStore.clean (fun x => x != "b")
        ⟨0, 0, [⟨"a", 0, 1⟩, ⟨"b", 0, 2⟩, ⟨"c", 0, 3⟩], [⟨"z", 0, 4⟩]⟩
      = (["a", "b"], Except.error "b") :=
  (clean_spec (fun x => x != "b")
      ⟨0, 0, [⟨"a", 0, 1⟩, ⟨"b", 0, 2⟩, ⟨"c", 0, 3⟩], [⟨"z", 0, 4⟩]⟩).2.1
    [⟨"a", 0, 1⟩] ⟨"b", 0, 2⟩ [⟨"c", 0, 3⟩] rfl (by decide) (by decide)

/-- recordsOf strips the record wrapper off a mapped record section. -/
theorem recordsOf_map_record (l : List PathInfo) :
    recordsOf (l.map DisplayLine.record) = l := by
  induction l with
  | nil => rfl
  | cons p rest ih => simp [recordsOf, List.filterMap_cons] at ih ⊢; exact ih

/-- recordsOf of an empty transcript. -/
theorem recordsOf_nil : recordsOf [] = [] := rfl

/-- Headers render no records. -/
theorem recordsOf_ignoreHeader (l : List DisplayLine) :
    recordsOf (DisplayLine.ignoreHeader :: l) = recordsOf l := by
  simp [recordsOf, List.filterMap_cons]

/-- Headers render no records. -/
theorem recordsOf_selectHeader (l : List DisplayLine) :
    recordsOf (DisplayLine.selectHeader :: l) = recordsOf l := by
  simp [recordsOf, List.filterMap_cons]

/-- The totals line renders no records. -/
theorem recordsOf_totals (a b c : Nat) :
    recordsOf [DisplayLine.totals a b c] = [] := rfl

/-- recordsOf distributes over transcript concatenation. -/
theorem recordsOf_append (a b : List DisplayLine) :
    recordsOf (a ++ b) = recordsOf a ++ recordsOf b := by
  simp [recordsOf, List.filterMap_append]

/-- The display transcript always ends with the totals line: count selected,
count total, wrapped freeable sum. -/
theorem display_getLast (s : PathInfoStore) :
    s.display.getLast? = some (DisplayLine.totals s.projects.length
      (s.projects.length + s.ignores.length) ((s.projects.map PathInfo.size).sum % M64)) := by
  unfold PathInfoStore.display
  rw [List.getLast?_concat]

/-- C7: the display transcript renders the ignored records first and the
selected records after them, ends with the totals line carrying the selected
count, the total count (selected plus ignored), and the sum of sizeBytes over
the selected records as the freeable total (exact whenever that sum fits in
u64), and the operation leaves the store's state — both sequences and the
policy — unchanged. -/
theorem display_spec (s : PathInfoStore)
    (hb : (s.projects.map PathInfo.size).sum < M64) :
    recordsOf s.display = s.ignores ++ s.projects
  ∧ s.display.getLast? = some (DisplayLine.totals s.projects.length
      (s.projects.length + s.ignores.length) ((s.projects.map PathInfo.size).sum))
  ∧ displayOp s = (s, s.display) := by
  refine ⟨?_, ?_, rfl⟩
  · unfold PathInfoStore.display
    rw [recordsOf_append, recordsOf_append]
    by_cases hi : s.ignores.isEmpty
    · by_cases hp : s.projects.isEmpty
      · simp [hi, hp, List.isEmpty_iff.mp hi, List.isEmpty_iff.mp hp, recordsOf_nil,
          recordsOf_totals]
      · simp [hi, hp, List.isEmpty_iff.mp hi, recordsOf_nil, recordsOf_totals,
          recordsOf_selectHeader, recordsOf_map_record]
    · by_cases hp : s.projects.isEmpty
      · simp [hi, hp, List.isEmpty_iff.mp hp, recordsOf_nil, recordsOf_totals,
          recordsOf_ignoreHeader, recordsOf_map_record]
      · simp [hi, hp, recordsOf_nil, recordsOf_totals, recordsOf_ignoreHeader,
          recordsOf_selectHeader, recordsOf_map_record]
  · rw [display_getLast s, Nat.mod_eq_of_lt hb]

/-- C7 witness: one ignored and one selected record render in that order, the
totals line shows 1 selected of 2 total with 10 freeable bytes, and the state
is unchanged. -/
theorem display_spec_witness :
    recordsOf (PathInfoStore.display ⟨0, 0, [⟨"p", 5, 10⟩], [⟨"q", 6, 20⟩]⟩)
        = [⟨"q", 6, 20⟩, ⟨"p", 5, 10⟩]
      ∧ (PathInfoStore.display ⟨0, 0, [⟨"p", 5, 10⟩], [⟨"q", 6, 20⟩]⟩).getLast?
        = some (DisplayLine.totals 1 2 10)
      ∧ displayOp ⟨0, 0, [⟨"p", 5, 10⟩], [⟨"q", 6, 20⟩]⟩
        = (⟨0, 0, [⟨"p", 5, 10⟩], [⟨"q", 6, 20⟩]⟩,
            PathInfoStore.display ⟨0, 0, [⟨"p", 5, 10⟩], [⟨"q", 6, 20⟩]⟩) :=
  display_spec ⟨0, 0, [⟨"p", 5, 10⟩], [⟨"q", 6, 20⟩]⟩ (by decide)

/-- One push appends the record to exactly one of the two sequences. -/
theorem push_appends_one (s : PathInfoStore) (now : Nat) (info : PathInfo) :
    ((s.push now info).ignores = s.ignores ++ [info]
        ∧ (s.push now info).projects = s.projects)
  ∨ ((s.push now info).projects = s.projects ++ [info]
        ∧ (s.push now info).ignores = s.ignores) := by
  by_cases h : info.size ≤ s.keep_size ∨ days_elapsed now info < s.keep_days
  · exact Or.inl (by simp [PathInfoStore.push, h])
  · exact Or.inr (by simp [PathInfoStore.push, h])

/-- Folding an arrival order over the store extends the combined contents by
exactly the arrived records, up to which of the two lists each one joined. -/
theorem addAll_perm_aux (l : List (Nat × PathInfo)) : ∀ s : PathInfoStore,
    ((s.addAll l).ignores ++ (s.addAll l).projects).Perm
      ((s.ignores ++ s.projects) ++ l.map Prod.snd) := by
  induction l with
  | nil => intro s; simp [PathInfoStore.addAll]
  | cons a rest ih =>
      intro s
      obtain ⟨now, info⟩ := a
      have hstep : ((s.push now info).ignores ++ (s.push now info).projects).Perm
          ((s.ignores ++ s.projects) ++ [info]) := by
        have hmid : ((s.ignores ++ s.projects) ++ [info]).Perm
            (info :: (s.ignores ++ s.projects)) := by
          simpa using @List.perm_middle _ info (s.ignores ++ s.projects) []
        rcases push_appends_one s now info with ⟨h1, h2⟩ | ⟨h1, h2⟩
        · rw [h1, h2, List.append_assoc]
          exact List.perm_middle.trans hmid.symm
        · rw [h1, h2, ← List.append_assoc]
      have htail : ((s.push now info).addAll rest).ignores
            ++ ((s.push now info).addAll rest).projects
          |>.Perm (((s.push now info).ignores ++ (s.push now info).projects)
            ++ rest.map Prod.snd) := ih (s.push now info)
      show (((s.push now info).addAll rest).ignores
          ++ ((s.push now info).addAll rest).projects).Perm _
      refine htail.trans ?_
      have := hstep.append_right (rest.map Prod.snd)
      refine this.trans ?_
      rw [List.append_assoc]
      rfl

/-- C8: over every serialized arrival order of concurrent add calls (the
aqueue Actor executes queued add_path_info calls one at a time, so every
concurrent execution is observed as some arrival order), the final ignored
and selected sequences together hold exactly the records passed to add — each
exactly once, none lost, none duplicated, no partial append. -/
theorem add_linearizable (kd ks : Nat) (arrival : List (Nat × PathInfo)) :
    (((PathInfoStore.new kd ks).addAll arrival).ignores
        ++ ((PathInfoStore.new kd ks).addAll arrival).projects).Perm
      (arrival.map Prod.snd) := by
  simpa [PathInfoStore.new] using addAll_perm_aux arrival (PathInfoStore.new kd ks)

/-- Each push grows the combined length by one. -/
theorem addAll_length_aux (l : List (Nat × PathInfo)) : ∀ s : PathInfoStore,
    (s.addAll l).ignores.length + (s.addAll l).projects.length
      = s.ignores.length + s.projects.length + l.length := by
  induction l with
  | nil => intro s; simp [PathInfoStore.addAll]
  | cons a rest ih =>
      intro s
      obtain ⟨now, info⟩ := a
      show ((s.push now info).addAll rest).ignores.length
          + ((s.push now info).addAll rest).projects.length = _
      rw [ih (s.push now info)]
      rcases push_appends_one s now info with ⟨h1, h2⟩ | ⟨h1, h2⟩ <;>
        simp [h1, h2, List.length_append] <;> omega

/-- C10: starting from a fresh store, every added record is appended to
exactly one of the two sequences, after n adds the lengths of ignored and
selected sum to n, and the total count in the final totals line of the report
equals the number of records added. -/
theorem addAll_partition (kd ks : Nat) (l : List (Nat × PathInfo)) :
    (∀ (s : PathInfoStore) (now : Nat) (info : PathInfo),
        ((s.push now info).ignores = s.ignores ++ [info]
            ∧ (s.push now info).projects = s.projects)
      ∨ ((s.push now info).projects = s.projects ++ [info]
            ∧ (s.push now info).ignores = s.ignores))
  ∧ ((PathInfoStore.new kd ks).addAll l).ignores.length
      + ((PathInfoStore.new kd ks).addAll l).projects.length = l.length
  ∧ ∃ free, ((PathInfoStore.new kd ks).addAll l).display.getLast?
      = some (DisplayLine.totals ((PathInfoStore.new kd ks).addAll l).projects.length
          l.length free) := by
  have hlen : ((PathInfoStore.new kd ks).addAll l).ignores.length
      + ((PathInfoStore.new kd ks).addAll l).projects.length = l.length := by
    rw [addAll_length_aux l (PathInfoStore.new kd ks)]
    simp [PathInfoStore.new]
  refine ⟨push_appends_one, hlen, ?_⟩
  refine ⟨(((PathInfoStore.new kd ks).addAll l).projects.map PathInfo.size).sum % M64, ?_⟩
  rw [display_getLast]
  have : ((PathInfoStore.new kd ks).addAll l).projects.length
      + ((PathInfoStore.new kd ks).addAll l).ignores.length = l.length := by omega
  rw [this]
